import Mathlib

/-!
Shallow embedding of the module-resolution and change-relevance core of the
vite-plugin-style-dictionary repository (src/internal.ts, src/path-utils.ts),
together with a model of the Node.js path routines and host (Vite) capabilities
it relies on.  Definitions mirror the TypeScript source; theorems settle the
frozen claims about the specification.
-/

namespace StyleDictionaryPlugin

/-! ## A small model of JavaScript runtime values

Token trees, module exports and the values flowing through the token loader
are dynamically typed.  `JSValue` models the JavaScript values that can occur
there; `jsTypeof`, `jsTruthy`, `jsGetProp` model the `typeof` operator,
truthiness, and property access (with optional chaining returning `undefined`
on primitives). -/

inductive JSValue where
  | undefined
  | null
  | bool (b : Bool)
  | num (k : Int)
  | str (s : String)
  | obj (fields : List (String × JSValue))
  | arr (elems : List JSValue)

def jsTypeof : JSValue → String
  | .undefined => "undefined"
  | .null => "object"
  | .bool _ => "boolean"
  | .num _ => "number"
  | .str _ => "string"
  | .obj _ => "object"
  | .arr _ => "object"

def jsTruthy : JSValue → Bool
  | .undefined => false
  | .null => false
  | .bool b => b
  | .num k => k ≠ 0
  | .str s => s ≠ ""
  | .obj _ => true
  | .arr _ => true

/-- Property lookup on an object's field list: first binding wins. -/
def jsLookup (key : String) : List (String × JSValue) → Option JSValue
  | [] => none
  | (k, v) :: rest => if k = key then some v else jsLookup key rest

/-- `m?.key`: `undefined` on `null`/`undefined`/primitives and missing keys. -/
def jsGetProp (v : JSValue) (key : String) : JSValue :=
  match v with
  | .obj fields => (jsLookup key fields).getD .undefined
  | _ => .undefined

/-- `x ?? y` considers exactly `null` and `undefined` as missing. -/
def jsNullish : JSValue → Bool
  | .undefined => true
  | .null => true
  | _ => false

/-- `module?.default ?? module` (src/internal.ts line 44): the `default`
property when it is present and neither `null` nor `undefined`, else the
module object itself. -/
def jsModuleDefault (m : JSValue) : JSValue :=
  let d := jsGetProp m "default"
  if jsNullish d then m else d

/-! ## Model of the Node.js `path` routines used by src/path-utils.ts

`path.win32.isAbsolute`, `path.win32.resolve`, `path.posix.normalize` and the
plugin's own helpers are modelled over `List Char`.  `splitComps` splits on a
separator predicate keeping empty components, `normalizeComps` performs the
`.`/`..` normalization of Node's `normalizeString`, and `joinSep` is
`Array.prototype.join` with a one-character separator. -/

def isPathSep (c : Char) : Bool := c = '/' || c = '\\'

def isPosixSep (c : Char) : Bool := c = '/'

def isWindowsDeviceRoot (c : Char) : Bool :=
  ('A' ≤ c && c ≤ 'Z') || ('a' ≤ c && c ≤ 'z')

def splitComps (p : Char → Bool) : List Char → List (List Char)
  | [] => [[]]
  | c :: rest =>
    if p c then [] :: splitComps p rest
    else
      match splitComps p rest with
      | [] => [[c]]
      | h :: t => (c :: h) :: t

def joinSep (s : Char) : List (List Char) → List Char
  | [] => []
  | [a] => a
  | a :: b :: t => a ++ s :: joinSep s (b :: t)

/-- One step of Node's `normalizeString`: drop empty and `.` components,
let `..` pop the previous component (or survive at the front when
`allowAbove` is set, as for relative paths). -/
def normStep (allowAbove : Bool) (acc : List (List Char)) (comp : List Char) :
    List (List Char) :=
  if comp = [] ∨ comp = ['.'] then acc
  else if comp = ['.', '.'] then
    match acc.getLast? with
    | some last => if last = ['.', '.'] then (if allowAbove then acc ++ [comp] else acc)
                   else acc.dropLast
    | none => if allowAbove then [comp] else []
  else acc ++ [comp]

def normalizeComps (allowAbove : Bool) (comps : List (List Char)) : List (List Char) :=
  comps.foldl (normStep allowAbove) []

/-- `path.win32.isAbsolute`. -/
def win32_isAbsolute (s : String) : Bool :=
  match s.data with
  | [] => false
  | c :: rest =>
    isPathSep c ||
      (match rest with
       | ':' :: c2 :: _ => isWindowsDeviceRoot c && isPathSep c2
       | _ => false)

/-- The drive and directory of `process.cwd()` assumed by the resolve model
(`C:\work`).  Only drive-relative, rooted and relative inputs consult it;
the source only ever resolves absolute paths. -/
def MODEL_CWD_DEVICE : List Char := ['C', ':']

def MODEL_CWD_TAIL : List (List Char) := [['w', 'o', 'r', 'k']]

/-- `path.win32.resolve` on a path with no device: rooted paths (single
leading separator) resolve against the cwd drive, UNC paths keep their
`\\server\share` device, relative paths resolve against the cwd. -/
def win32_resolveNonDevice (cs : List Char) : List Char :=
  match cs with
  | c1 :: rest =>
    if isPathSep c1 then
      match rest with
      | c2 :: rest2 =>
        if isPathSep c2 then
          match splitComps isPathSep rest2 with
          | server :: share :: tail =>
            if server ≠ [] ∧ share ≠ [] then
              ['\\', '\\'] ++ server ++ '\\' :: share ++ '\\' ::
                joinSep '\\' (normalizeComps false tail)
            else
              MODEL_CWD_DEVICE ++ '\\' :: joinSep '\\' (normalizeComps false (splitComps isPathSep cs))
          | _ =>
            MODEL_CWD_DEVICE ++ '\\' :: joinSep '\\' (normalizeComps false (splitComps isPathSep cs))
        else
          MODEL_CWD_DEVICE ++ '\\' :: joinSep '\\' (normalizeComps false (splitComps isPathSep cs))
      | [] => MODEL_CWD_DEVICE ++ ['\\']
    else
      MODEL_CWD_DEVICE ++ '\\' ::
        joinSep '\\' (normalizeComps false (MODEL_CWD_TAIL ++ splitComps isPathSep cs))
  | [] =>
    MODEL_CWD_DEVICE ++ '\\' :: joinSep '\\' (normalizeComps false MODEL_CWD_TAIL)

/-- `path.win32.resolve` on a single argument. -/
def win32_resolve (s : String) : String :=
  match s.data with
  | c1 :: ':' :: rest =>
    if isWindowsDeviceRoot c1 then
      match rest with
      | c2 :: tail =>
        if isPathSep c2 then
          ⟨[c1, ':', '\\'] ++ joinSep '\\' (normalizeComps false (splitComps isPathSep tail))⟩
        else
          ⟨[c1, ':', '\\'] ++
            joinSep '\\' (normalizeComps false (MODEL_CWD_TAIL ++ splitComps isPathSep rest))⟩
      | [] =>
        ⟨[c1, ':', '\\'] ++ joinSep '\\' (normalizeComps false MODEL_CWD_TAIL)⟩
    else ⟨win32_resolveNonDevice s.data⟩
  | _ => ⟨win32_resolveNonDevice s.data⟩

/-- `path.posix.normalize`. -/
def posix_normalize (s : String) : String :=
  match s.data with
  | [] => "."
  | c :: rest =>
    let cs := c :: rest
    let isAbs := isPosixSep c
    let trailing := isPosixSep (cs.getLastD ' ')
    let body := joinSep '/' (normalizeComps (!isAbs) (splitComps isPosixSep cs))
    if body = [] then
      (if isAbs then "/" else if trailing then "./" else ".")
    else
      let withTrail := if trailing then body ++ ['/'] else body
      if isAbs then ⟨'/' :: withTrail⟩ else ⟨withTrail⟩

/-! ## src/path-utils.ts -/

/-- `String.prototype.startsWith` over the character sequence. -/
def jsStartsWith (s pre : String) : Bool := pre.data.isPrefixOf s.data

/-- Source constant `VITE_FS_PREFIX` (renamed to satisfy local lint rules). -/
def VITE_FS_PFX : String := "/@fs/"

/-- Anchored literal-prefix rewrite, one application (a `String.replace` with
a `^`-anchored pattern). -/
def stripOnce (pat rep cs : List Char) : List Char :=
  if pat.isPrefixOf cs then rep ++ cs.drop pat.length else cs

/-- `^\/+\?\/UNC\/` replaced by `//` (first match only). -/
def stripSlashUNC (cs : List Char) : List Char :=
  let k := (cs.takeWhile (fun c => c = '/')).length
  if 1 ≤ k ∧ ['?', '/', 'U', 'N', 'C', '/'].isPrefixOf (cs.drop k) then
    ['/', '/'] ++ cs.drop (k + 6)
  else cs

/-- `^\/+\?\/` removed (first match only). -/
def stripSlashQ (cs : List Char) : List Char :=
  let k := (cs.takeWhile (fun c => c = '/')).length
  if 1 ≤ k ∧ ['?', '/'].isPrefixOf (cs.drop k) then cs.drop (k + 2) else cs

/-- `stripWindowsNamespace` applies the six `WINDOWS_NAMESPACE_PREFIXES`
rewrites in declaration order, each to the result of the previous one. -/
def stripWindowsNamespace (s : String) : String :=
  let r1 := stripOnce ['\\', '\\', '?', '\\', 'U', 'N', 'C', '\\'] ['\\', '\\'] s.data
  let r2 := stripOnce ['\\', '?', '\\', 'U', 'N', 'C', '\\'] ['\\', '\\'] r1
  let r3 := stripOnce ['\\', '\\', '?', '\\'] [] r2
  let r4 := stripOnce ['\\', '?', '\\'] [] r3
  let r5 := stripSlashUNC r4
  let r6 := stripSlashQ r5
  ⟨r6⟩

/-- The character rewrite of `value.replace(/\\/g, '/')`. -/
def swapSlash (c : Char) : Char := if c = '\\' then '/' else c

/-- Source `toPosixPath`: `value.replace(/\\/g, '/')`. -/
def toPosixPath (s : String) : String := ⟨s.data.map swapSlash⟩

/-- Vite's `normalizePath`: the identity away from Windows (the only place
this model uses it, since `normalizeVitePath` takes the posix branch on
`win32`). -/
def viteNormalizePath (value : String) : String := value

/-- Source `normalizeVitePath`. -/
def normalizeVitePath (value platform : String) : String :=
  if platform = "win32" then posix_normalize (toPosixPath value)
  else viteNormalizePath value

/-- Source `normalizeViteIdForPlatform`.  The injected real-path function is
modelled as `String → Option String`, `none` standing for a thrown exception,
which the `try`/`catch` turns into returning the input unchanged. -/
def normalizeViteIdForPlatform (id platform : String)
    (realpathSync : String → Option String) : String :=
  if platform ≠ "win32" then id
  else
    let pfx := if jsStartsWith id VITE_FS_PFX then VITE_FS_PFX else ""
    let rawPath := stripWindowsNamespace (if pfx ≠ "" then ⟨id.data.drop pfx.length⟩ else id)
    if ¬ win32_isAbsolute rawPath then id
    else
      match realpathSync (win32_resolve rawPath) with
      | none => id
      | some rp =>
        let realPath := stripWindowsNamespace rp
        if pfx ≠ "" then pfx ++ normalizeVitePath realPath platform else realPath

/-! ## Host capabilities and the dev-server handle

The host bundler and the ambient Node process are consumed through a
capability interface (spec section 6): `Host` collects the ambient
environment (platform, `fs.realpathSync`, Vite's `createFilter`, the
platform `path` module, and the fixed default entry
`path.resolve(process.cwd(), 'tokens.ts')`); `ViteDevServer` is the live
server handle with its module graph, plugin-container resolution and
server-side module execution.  Module-graph nodes are opaque handles drawn
from the finite type `Fin n`. -/

structure ModuleGraph (n : ℕ) where
  importedModules : Fin n → List (Fin n)
  ssrImportedModules : Fin n → List (Fin n)
  getModulesByFile : String → Option (List (Fin n))

structure ViteDevServer (n : ℕ) where
  root : String
  moduleGraph : ModuleGraph n
  /-- `pluginContainer.resolveId(id, undefined, { ssr })`: `none` models a
  null result, `some ""` a result object with a falsy `id`. -/
  resolveId : String → Bool → Option String
  /-- `ssrLoadModule`: server-side execution of a module identifier. -/
  ssrLoadModule : String → JSValue

structure Host where
  platform : String
  realpathSync : String → Option String
  /-- Vite's `createFilter`, fed with literal paths and glob patterns. -/
  createFilter : List String → String → Bool
  /-- `path.isAbsolute` of the ambient platform's `path` module. -/
  pathIsAbsolute : String → Bool
  /-- `path.join(root, source)` of the ambient platform. -/
  pathJoin : String → String → String
  /-- `path.resolve` (single argument) of the ambient platform. -/
  pathResolve : String → String
  /-- `path.sep` of the ambient platform. -/
  pathSep : Char
  /-- `path.relative(from, to)` of the ambient platform. -/
  pathRelative : String → String → String
  /-- Source constant `DEFAULT_ENTRY = path.resolve(process.cwd(), 'tokens.ts')`. -/
  defaultEntry : String

/-- Source `normalizeViteId`: `normalizeViteIdForPlatform` applied at the
ambient `process.platform` and `fs.realpathSync`. -/
def normalizeViteId (H : Host) (id : String) : String :=
  normalizeViteIdForPlatform id H.platform H.realpathSync

/-! ## src/internal.ts -/

/-- `[...current.importedModules, ...current.ssrImportedModules]`. -/
def edgesOf (G : ModuleGraph n) (m : Fin n) : List (Fin n) :=
  G.importedModules m ++ G.ssrImportedModules m

/-- Source `collectModuleGraph`: worklist traversal of the module graph with
a visited set checked before a node is expanded. -/
def collectModuleGraph (G : ModuleGraph n) (queue : List (Fin n))
    (visited : Finset (Fin n)) : Finset (Fin n) :=
  match queue with
  | [] => visited
  | current :: rest =>
    if current ∈ visited then
      collectModuleGraph G rest visited
    else
      collectModuleGraph G (rest ++ edgesOf G current) (insert current visited)
termination_by ((Finset.univ \ visited).card, queue.length)
decreasing_by
  · apply Prod.Lex.right
    simp
  · apply Prod.Lex.left
    apply Finset.card_lt_card
    constructor
    · intro x hx
      simp only [Finset.mem_sdiff, Finset.mem_insert] at hx ⊢
      exact ⟨hx.1, fun hxv => hx.2 (Or.inr hxv)⟩
    · intro hsub
      have hc : current ∈ Finset.univ \ visited := by
        simp only [Finset.mem_sdiff, Finset.mem_univ, true_and]
        assumption
      have := hsub hc
      simp at this

/-- Source `parseTokenModule` (the `style-dictionary-vite-loader` parser):
ignores the textual contents, loads the tokens through the supplied loader,
and rejects anything that is not a (truthy) object. -/
def parseTokenModule (H : Host) (contents : String) (filePath : Option String)
    (loadTokens : Option String → Except String JSValue) : Except String JSValue :=
  let sourceFile := filePath.getD H.defaultEntry
  let _contents := contents
  match loadTokens filePath with
  | .error e => .error e
  | .ok tokens =>
    if ¬ jsTruthy tokens ∨ jsTypeof tokens ≠ "object" then
      .error ("[style-dictionary] " ++ sourceFile ++ " must export a default object")
    else .ok tokens

/-- `isGlob`: `/[*?[\]]/.test(source)`. -/
def isGlob (source : String) : Bool :=
  source.data.any (fun c => c = '*' || c = '?' || c = '[' || c = ']')

/-- `source?: string[] | string` of the plugin options. -/
inductive SourceConfig where
  | undef
  | str (s : String)
  | arr (l : List String)

/-- Source `normalizeSources`: `source ? castArray(source) : []` (the empty
string is falsy in JavaScript, so it also yields `[]`). -/
def normalizeSources : SourceConfig → List String
  | .undef => []
  | .str s => if s = "" then [] else [s]
  | .arr l => l

/-- Source `toAbsoluteGlobs`. -/
def toAbsoluteGlobs (H : Host) (root : String) (sources : List String) : List String :=
  sources.map (fun source =>
    if H.pathIsAbsolute source then source else H.pathJoin root source)

/-- Source `resolveTokenEntry`: normalize, resolve via the plugin container
with `ssr: true`, reject null/falsy, `\0`-internal and `virtual:` results,
and normalize the accepted identifier. -/
def resolveTokenEntry (H : Host) (server : ViteDevServer n) (sourceFile : String) :
    Option String :=
  let normalizedSource := normalizeViteId H sourceFile
  match server.resolveId normalizedSource true with
  | none => none
  | some rid =>
    if rid = "" ∨ jsStartsWith rid "\x00" ∨ jsStartsWith rid "virtual:" then none
    else some (normalizeViteId H rid)

/-- Source `resolveSourceEntries`. -/
def resolveSourceEntries (H : Host) (server : ViteDevServer n)
    (source : SourceConfig) : List String :=
  let sources := normalizeSources source
  sources.map (fun entry =>
    if isGlob entry then entry
    else
      let absoluteSource :=
        if H.pathIsAbsolute entry then entry else H.pathJoin server.root entry
      (resolveTokenEntry H server absoluteSource).getD absoluteSource)

/-- Source `toViteModuleId`. -/
def toViteModuleId (H : Host) (root filePath : String) : String :=
  let normalizedRoot := H.pathResolve root
  let normalizedFile := H.pathResolve filePath
  if jsStartsWith normalizedFile (normalizedRoot ++ String.singleton H.pathSep) then
    "/" ++ String.intercalate "/"
      ((H.pathRelative normalizedRoot normalizedFile).split (fun c => c = H.pathSep))
  else
    "/@fs/" ++ String.intercalate "/" (normalizedFile.split (fun c => c = H.pathSep))

/-- The module identifier the tokens loader executes: the resolved entry if
resolution succeeded, else the root-relative/escape-prefixed identifier, in
both cases normalized. -/
def tokensModuleId (H : Host) (server : ViteDevServer n) (filePath : Option String) :
    String :=
  let sourceFile := normalizeViteId H (filePath.getD H.defaultEntry)
  let entryFile := resolveTokenEntry H server sourceFile
  normalizeViteId H (entryFile.getD (toViteModuleId H server.root sourceFile))

/-- Source `createTokensLoader`: the returned loader closure.  The server
handle getter is modelled by the `Option (ViteDevServer n)` it would return
at call time; errors are modelled with `Except`. -/
def createTokensLoader (H : Host) (getServer : Option (ViteDevServer n)) :
    Option String → Except String JSValue :=
  fun filePath =>
    match getServer with
    | none => .error "[style-dictionary] Vite server is not available"
    | some server =>
      .ok (jsModuleDefault (server.ssrLoadModule (tokensModuleId H server filePath)))

/-- The `entryFiles` computed inside `isRelevantChange` (src/internal.ts
lines 84–91): every non-glob declared source made absolute against the
project root and resolved with fallback to the absolute literal. -/
def resolvedEntryFiles (H : Host) (server : ViteDevServer n)
    (sources : List String) : List String :=
  (sources.filter (fun source => ¬ isGlob source)).map (fun source =>
    let absoluteSource :=
      if H.pathIsAbsolute source then source else H.pathJoin server.root source
    (resolveTokenEntry H server absoluteSource).getD absoluteSource)

/-- The `entryModules` computed inside `isRelevantChange` (src/internal.ts
lines 92–94): all module-graph nodes registered under the resolved entry
files. -/
def entryNodes (H : Host) (server : ViteDevServer n) (sources : List String) :
    List (Fin n) :=
  (resolvedEntryFiles H server sources).flatMap (fun file =>
    (server.moduleGraph.getModulesByFile file).getD [])

/-- Source `isRelevantChange` (its `entryFiles`/`entryModules` locals are the
named definitions above). -/
def isRelevantChange (H : Host) (server : ViteDevServer n) (sources : List String)
    (changedFile : String) : Bool :=
  let includeFilter := H.createFilter (toAbsoluteGlobs H server.root sources)
  if includeFilter changedFile then true
  else
    let entryModules := entryNodes H server sources
    if entryModules.length = 0 then false
    else
      match server.moduleGraph.getModulesByFile changedFile with
      | none => false
      | some changedModules =>
        if changedModules.length = 0 then false
        else
          let tokenGraph := collectModuleGraph server.moduleGraph entryModules ∅
          changedModules.any (fun m => decide (m ∈ tokenGraph))

/-- Forward reachability along static and ssr import edges (reflexive and
transitive), the specification-side notion the change-relevance engine is
measured against. -/
def Reaches (G : ModuleGraph n) (a b : Fin n) : Prop :=
  Relation.ReflTransGen (fun x y => y ∈ edgesOf G x) a b

/-! ## Correctness of the worklist traversal -/

theorem subset_collectModuleGraph (G : ModuleGraph n) (queue : List (Fin n))
    (visited : Finset (Fin n)) : visited ⊆ collectModuleGraph G queue visited := by
  induction queue, visited using collectModuleGraph.induct (G := G) with
  | case1 visited => simp [collectModuleGraph]
  | case2 visited current rest hmem ih =>
    rw [collectModuleGraph]
    simpa [hmem] using ih
  | case3 visited current rest hmem ih =>
    rw [collectModuleGraph]
    simp only [hmem, if_false]
    exact fun x hx => ih (Finset.mem_insert_of_mem hx)

theorem mem_collectModuleGraph_of_mem_queue (G : ModuleGraph n) (queue : List (Fin n))
    (visited : Finset (Fin n)) :
    ∀ q ∈ queue, q ∈ collectModuleGraph G queue visited := by
  induction queue, visited using collectModuleGraph.induct (G := G) with
  | case1 visited => simp
  | case2 visited current rest hmem ih =>
    intro q hq
    rw [collectModuleGraph]
    simp only [hmem, if_true]
    rcases List.mem_cons.mp hq with hq | hq
    · exact hq ▸ subset_collectModuleGraph G rest visited hmem
    · exact ih q hq
  | case3 visited current rest hmem ih =>
    intro q hq
    rw [collectModuleGraph]
    simp only [hmem, if_false]
    rcases List.mem_cons.mp hq with hq | hq
    · subst hq
      exact subset_collectModuleGraph G _ _ (Finset.mem_insert_self q visited)
    · exact ih q (List.mem_append_left _ hq)

theorem collectModuleGraph_closed (G : ModuleGraph n) (queue : List (Fin n))
    (visited : Finset (Fin n)) :
    (∀ v ∈ visited, ∀ e ∈ edgesOf G v, e ∈ visited ∨ e ∈ queue) →
      ∀ v ∈ collectModuleGraph G queue visited, ∀ e ∈ edgesOf G v,
        e ∈ collectModuleGraph G queue visited := by
  induction queue, visited using collectModuleGraph.induct (G := G) with
  | case1 visited =>
    intro hinv v hv e he
    rw [collectModuleGraph] at hv ⊢
    rcases hinv v hv e he with h | h
    · exact h
    · simp at h
  | case2 visited current rest hmem ih =>
    intro hinv
    rw [collectModuleGraph]
    simp only [hmem, if_true]
    apply ih
    intro v hv e he
    rcases hinv v hv e he with h | h
    · exact Or.inl h
    · rcases List.mem_cons.mp h with h | h
      · exact Or.inl (h ▸ hmem)
      · exact Or.inr h
  | case3 visited current rest hmem ih =>
    intro hinv
    rw [collectModuleGraph]
    simp only [hmem, if_false]
    apply ih
    intro v hv e he
    rcases Finset.mem_insert.mp hv with hv | hv
    · exact Or.inr (List.mem_append_right _ (hv ▸ he))
    · rcases hinv v hv e he with h | h
      · exact Or.inl (Finset.mem_insert_of_mem h)
      · rcases List.mem_cons.mp h with h | h
        · exact Or.inl (h ▸ Finset.mem_insert_self current visited)
        · exact Or.inr (List.mem_append_left _ h)

theorem collectModuleGraph_sound (G : ModuleGraph n) (queue : List (Fin n))
    (visited : Finset (Fin n)) :
    ∀ m ∈ collectModuleGraph G queue visited,
      m ∈ visited ∨ ∃ q ∈ queue, Reaches G q m := by
  induction queue, visited using collectModuleGraph.induct (G := G) with
  | case1 visited =>
    intro m hm
    rw [collectModuleGraph] at hm
    exact Or.inl hm
  | case2 visited current rest hmem ih =>
    intro m hm
    rw [collectModuleGraph] at hm
    simp only [hmem, if_true] at hm
    rcases ih m hm with h | ⟨q, hq, hr⟩
    · exact Or.inl h
    · exact Or.inr ⟨q, List.mem_cons_of_mem _ hq, hr⟩
  | case3 visited current rest hmem ih =>
    intro m hm
    rw [collectModuleGraph] at hm
    simp only [hmem, if_false] at hm
    rcases ih m hm with h | ⟨q, hq, hr⟩
    · rcases Finset.mem_insert.mp h with h | h
      · exact Or.inr ⟨current, List.mem_cons_self _ _, h ▸ Relation.ReflTransGen.refl⟩
      · exact Or.inl h
    · rcases List.mem_append.mp hq with hq | hq
      · exact Or.inr ⟨q, List.mem_cons_of_mem _ hq, hr⟩
      · exact Or.inr ⟨current, List.mem_cons_self _ _,
          Relation.ReflTransGen.head hq hr⟩

theorem reaches_mem_of_closed (G : ModuleGraph n) (S : Finset (Fin n))
    (hcl : ∀ v ∈ S, ∀ e ∈ edgesOf G v, e ∈ S) {a b : Fin n}
    (ha : a ∈ S) (h : Reaches G a b) : b ∈ S := by
  induction h with
  | refl => exact ha
  | tail _hab hbc ih => exact hcl _ ih _ hbc

/-- The visited set computed from an initial queue and an empty visited set is
exactly the forward-reachable set. -/
theorem mem_collectModuleGraph_iff (G : ModuleGraph n) (queue : List (Fin n))
    (m : Fin n) :
    m ∈ collectModuleGraph G queue ∅ ↔ ∃ q ∈ queue, Reaches G q m := by
  constructor
  · intro h
    rcases collectModuleGraph_sound G queue ∅ m h with h | h
    · simp at h
    · exact h
  · rintro ⟨q, hq, hr⟩
    exact reaches_mem_of_closed G _
      (collectModuleGraph_closed G queue ∅ (by simp))
      (mem_collectModuleGraph_of_mem_queue G queue ∅ q hq) hr

/-! ## Claim theorems: change relevance and traversal -/

/-- C1: for every server state, declared source list and changed file,
`isRelevantChange` returns true iff the changed file matches the inclusion
filter built from the absolute forms of the declared sources, or some
module-graph node registered under the changed file is reachable (along
static and ssr import edges) from some node registered under a resolved
entry file.  In particular a direct filter match needs no graph nodes, and
any one reachable node of the changed file suffices. -/
theorem isRelevantChange_iff_filter_or_reachable (H : Host) (server : ViteDevServer n)
    (sources : List String) (changedFile : String) :
    isRelevantChange H server sources changedFile = true ↔
      (H.createFilter (toAbsoluteGlobs H server.root sources) changedFile = true ∨
        ∃ m ∈ (server.moduleGraph.getModulesByFile changedFile).getD [],
          ∃ e ∈ entryNodes H server sources, Reaches server.moduleGraph e m) := by
  by_cases hf : H.createFilter (toAbsoluteGlobs H server.root sources) changedFile = true
  · simp [isRelevantChange, hf]
  · cases hgm : server.moduleGraph.getModulesByFile changedFile with
    | none =>
      simp [isRelevantChange, hf, hgm]
    | some cms =>
      by_cases hE : (entryNodes H server sources).length = 0
      · have hEnil : entryNodes H server sources = [] := List.length_eq_zero.mp hE
        simp [isRelevantChange, hf, hgm, hEnil]
      · by_cases hcm : cms.length = 0
        · have hc : cms = [] := List.length_eq_zero.mp hcm
          subst hc
          simp [isRelevantChange, hf, hgm, hE]
        · simp [isRelevantChange, hf, hgm, hE, hcm, List.any_eq_true,
            mem_collectModuleGraph_iff]

/-- C2: the worklist traversal `collectModuleGraph` is a total function (its
definition carries a termination proof valid for every finite module graph,
cyclic or not), and the visited set it returns from an initial queue is
exactly the set of nodes reachable from that queue, so the traversal order
cannot affect the boolean relevance result. -/
theorem collectModuleGraph_reachable_set (G : ModuleGraph n) (queue : List (Fin n))
    (m : Fin n) :
    m ∈ collectModuleGraph G queue ∅ ↔ ∃ q ∈ queue, Reaches G q m :=
  mem_collectModuleGraph_iff G queue m

/-! ## Claim theorems: token loading and parsing -/

/-- The token tree of the integration fixture:
`{color: {brand: {value: '#2798f5', type: 'color'}}}`. -/
def brandTokens : JSValue :=
  .obj [("color", .obj [("brand",
    .obj [("value", .str "#2798f5"), ("type", .str "color")])])]

/-- C7: the tokens loader yields the executed module's `default` export when
that property is present and neither `null` nor `undefined`, and otherwise
the module object itself; loading a module whose default export is the
fixture token tree yields exactly that tree. -/
theorem createTokensLoader_extracts_default :
    (∀ (M d : JSValue), jsGetProp M "default" = d → d ≠ .null → d ≠ .undefined →
        jsModuleDefault M = d) ∧
    (∀ M : JSValue, (jsGetProp M "default" = .null ∨ jsGetProp M "default" = .undefined) →
        jsModuleDefault M = M) ∧
    (∀ (n : ℕ) (H : Host) (server : ViteDevServer n) (fp : Option String),
        createTokensLoader H (some server) fp =
          .ok (jsModuleDefault (server.ssrLoadModule (tokensModuleId H server fp)))) ∧
    (∀ (n : ℕ) (H : Host) (server : ViteDevServer n) (fp : Option String),
        server.ssrLoadModule = (fun _ => JSValue.obj [("default", brandTokens)]) →
        createTokensLoader H (some server) fp = .ok brandTokens) := by
  refine ⟨?_, ?_, ?_, ?_⟩
  · intro M d hd h1 h2
    have hnn : jsNullish d = false := by
      cases d <;> simp_all [jsNullish]
    simp [jsModuleDefault, hd, hnn]
  · intro M h
    rcases h with h | h <;> simp [jsModuleDefault, h, jsNullish]
  · intro n H server fp
    rfl
  · intro n H server fp h
    simp only [createTokensLoader]
    rw [h]
    rfl

/-- C7 witness: extraction at concrete inputs through the claim theorem. -/
theorem createTokensLoader_extracts_default_witness :
    jsModuleDefault (.obj [("default", .num 5)]) = .num 5 ∧
    jsModuleDefault (.obj [("default", .null), ("color", .num 1)]) =
      .obj [("default", .null), ("color", .num 1)] :=
  ⟨createTokensLoader_extracts_default.1 _ (.num 5) rfl (by intro h; cases h) (by intro h; cases h),
   createTokensLoader_extracts_default.2.1 _ (Or.inl rfl)⟩

/-- C8: `parseTokenModule` fails with the invalid-token-export error exactly
when the value produced by the token loader is `null`, `undefined`, or not of
object type; the error message embeds the resolved source file path (the
given path or the default entry); an object value is returned unchanged. -/
theorem parseTokenModule_invalid_export (H : Host) (contents : String)
    (fp : Option String) (loader : Option String → Except String JSValue)
    (v : JSValue) (hv : loader fp = .ok v) :
    (parseTokenModule H contents fp loader =
        .error ("[style-dictionary] " ++ fp.getD H.defaultEntry ++
          " must export a default object") ↔
      (v = .null ∨ v = .undefined ∨ jsTypeof v ≠ "object")) ∧
    (∃ a b, ("[style-dictionary] " ++ fp.getD H.defaultEntry ++
        " must export a default object") = a ++ fp.getD H.defaultEntry ++ b) ∧
    ((jsTypeof v = "object" ∧ v ≠ .null) →
      parseTokenModule H contents fp loader = .ok v) := by
  refine ⟨?_, ⟨"[style-dictionary] ", " must export a default object", rfl⟩, ?_⟩
  · cases v <;> simp [parseTokenModule, hv, jsTruthy, jsTypeof]
  · rintro ⟨h1, h2⟩
    cases v <;> simp_all [parseTokenModule, hv, jsTruthy, jsTypeof]

/-- C9: the loader closure returned by `createTokensLoader` fails with the
server-unavailable error whenever the server handle getter yields nothing —
independently of any resolution or execution capability, none of which exist
without a server — and this error branch is unreachable once a server handle
is present (the call then succeeds with a value). -/
theorem createTokensLoader_requires_server :
    (∀ (H : Host) (k : ℕ) (fp : Option String),
        createTokensLoader (n := k) H none fp =
          .error "[style-dictionary] Vite server is not available") ∧
    (∀ (H : Host) (k : ℕ) (server : ViteDevServer k) (fp : Option String),
        ∃ tokens, createTokensLoader H (some server) fp = .ok tokens) :=
  ⟨fun _ _ _ => rfl, fun H _ server fp =>
    ⟨jsModuleDefault (server.ssrLoadModule (tokensModuleId H server fp)), rfl⟩⟩

/-- C10: `parseTokenModule` never consumes the textual `contents` handed to
the parser hook: two invocations differing only in that argument are
identical — the token tree comes solely from executing the module through
the loader. -/
theorem parseTokenModule_ignores_contents (H : Host) (c1 c2 : String)
    (fp : Option String) (loader : Option String → Except String JSValue) :
    parseTokenModule H c1 fp loader = parseTokenModule H c2 fp loader := rfl

/-! ## Claim theorems: entry resolution -/

/-- C6: `resolveSourceEntries` yields one element per declared source in
declaration order; a declared source containing a wildcard passes through
unchanged, and any other source is made absolute against the project root
and resolved through the host with `ssr: true`, falling back to the absolute
literal when `resolveTokenEntry` yields `null`; `resolveTokenEntry` yields
`null` exactly when the loader returned no (or a falsy) identifier, a
`\0`-internal identifier, or a `virtual:` identifier, and otherwise yields
the normalized resolved identifier. -/
theorem resolveSourceEntries_spec (H : Host) (server : ViteDevServer n)
    (src : SourceConfig) :
    ((resolveSourceEntries H server src).length = (normalizeSources src).length) ∧
    (∀ i : ℕ, (resolveSourceEntries H server src)[i]? =
      ((normalizeSources src)[i]?).map (fun entry =>
        if isGlob entry then entry
        else
          (resolveTokenEntry H server
              (if H.pathIsAbsolute entry then entry
               else H.pathJoin server.root entry)).getD
            (if H.pathIsAbsolute entry then entry
             else H.pathJoin server.root entry))) ∧
    (∀ p : String,
      (resolveTokenEntry H server p = none ↔
        server.resolveId (normalizeViteId H p) true = none ∨
          ∃ rid, server.resolveId (normalizeViteId H p) true = some rid ∧
            (rid = "" ∨ jsStartsWith rid "\x00" = true ∨
              jsStartsWith rid "virtual:" = true)) ∧
      (∀ rid, server.resolveId (normalizeViteId H p) true = some rid →
        ¬(rid = "" ∨ jsStartsWith rid "\x00" = true ∨
            jsStartsWith rid "virtual:" = true) →
        resolveTokenEntry H server p = some (normalizeViteId H rid))) := by
  refine ⟨?_, ?_, ?_⟩
  · simp [resolveSourceEntries]
  · intro i
    simp [resolveSourceEntries, List.getElem?_map]
  · intro p
    constructor
    · cases hres : server.resolveId (normalizeViteId H p) true with
      | none => simp [resolveTokenEntry, hres]
      | some rid =>
        by_cases hc : rid = "" ∨ jsStartsWith rid "\x00" = true ∨
            jsStartsWith rid "virtual:" = true
        · simp only [resolveTokenEntry, hres, if_pos hc]
          exact ⟨fun _ => Or.inr ⟨rid, rfl, hc⟩, fun _ => trivial⟩
        · simp only [resolveTokenEntry, hres, if_neg hc]
          constructor
          · intro h
            cases h
          · rintro (h | ⟨rid2, hrid2, hcond⟩)
            · cases h
            · cases hrid2
              exact absurd hcond hc
    · intro rid hres hc
      simp [resolveTokenEntry, hres, hc]

/-! ## Concrete fixtures used by witnesses -/

/-- A concrete non-Windows host (posix path module, identity real-path). -/
def H0 : Host where
  platform := "linux"
  realpathSync := fun s => some s
  createFilter := fun _ _ => false
  pathIsAbsolute := fun s => jsStartsWith s "/"
  pathJoin := fun root s => root ++ "/" ++ s
  pathResolve := fun s => s
  pathSep := '/'
  pathRelative := fun _ t => t
  defaultEntry := "/work/tokens.ts"

/-- A one-node module graph with no edges and no file registrations. -/
def G0 : ModuleGraph 1 where
  importedModules := fun _ => []
  ssrImportedModules := fun _ => []
  getModulesByFile := fun _ => none

/-- A concrete server whose plugin container resolves everything to
`/proj/tokens.ts` and whose loader returns the fixture token module. -/
def S0 : ViteDevServer 1 where
  root := "/proj"
  moduleGraph := G0
  resolveId := fun _ _ => some "/proj/tokens.ts"
  ssrLoadModule := fun _ => .obj [("default", brandTokens)]

/-- C6 witness: a non-glob source resolving to a concrete identifier. -/
theorem resolveSourceEntries_spec_witness :
    resolveTokenEntry H0 S0 "tokens.ts" = some (normalizeViteId H0 "/proj/tokens.ts") :=
  ((resolveSourceEntries_spec H0 S0 (SourceConfig.arr ["tokens.ts"])).2.2 "tokens.ts").2
    "/proj/tokens.ts" rfl (by decide)

/-- C8 witness: a module resolving to the string `"not-an-object"` is
rejected with a message containing the resolved file path. -/
theorem parseTokenModule_invalid_export_witness :
    parseTokenModule H0 "export default 1" (some "/proj/tokens.ts")
        (fun _ => .ok (.str "not-an-object")) =
      .error "[style-dictionary] /proj/tokens.ts must export a default object" :=
  (parseTokenModule_invalid_export H0 "export default 1" (some "/proj/tokens.ts")
      (fun _ => .ok (.str "not-an-object")) (.str "not-an-object") rfl).1.mpr
    (Or.inr (Or.inr (by decide)))

/-! ## Claim theorems: path normalization -/

/-- C3: on win32 the escaped identifier
`/@fs//?/C:/Users/Runner/AppData/Local/Temp/vite-sd/tokens.ts` normalizes to
`/@fs/C:/Users/Runner/AppData/Local/Temp/vite-sd/tokens.ts` under a real-path
function returning its argument, the argument handed to the real-path
function (the resolved raw path) is exactly the backslash-separated
`C:\Users\Runner\AppData\Local\Temp\vite-sd\tokens.ts`, and the same output
is produced by a real-path function defined at that argument only — so the
call cannot have used any other argument. -/
theorem normalizeViteIdForPlatform_win32_scenario :
    normalizeViteIdForPlatform
        "/@fs//?/C:/Users/Runner/AppData/Local/Temp/vite-sd/tokens.ts" "win32"
        (fun s => some s) =
      "/@fs/C:/Users/Runner/AppData/Local/Temp/vite-sd/tokens.ts" ∧
    win32_resolve (stripWindowsNamespace
        ⟨("/@fs//?/C:/Users/Runner/AppData/Local/Temp/vite-sd/tokens.ts").data.drop
          VITE_FS_PFX.length⟩) =
      "C:\\Users\\Runner\\AppData\\Local\\Temp\\vite-sd\\tokens.ts" ∧
    normalizeViteIdForPlatform
        "/@fs//?/C:/Users/Runner/AppData/Local/Temp/vite-sd/tokens.ts" "win32"
        (fun s =>
          if s = "C:\\Users\\Runner\\AppData\\Local\\Temp\\vite-sd\\tokens.ts"
          then some s else none) =
      "/@fs/C:/Users/Runner/AppData/Local/Temp/vite-sd/tokens.ts" := by
  refine ⟨by decide, by decide, by decide⟩

/-- C5: the normalizer never escalates: whenever the path left after
stripping the filesystem-escape prefix and the verbatim prefixes is not an
absolute Windows path the input is returned unchanged, and whenever the
real-path function throws (modelled by `none`) on the one argument the
normalizer actually passes to it — the resolved raw path — the input is
returned unchanged; being a total Lean function, the model cannot itself
fail. -/
theorem normalizeViteIdForPlatform_safe (id platform : String)
    (rp : String → Option String) :
    (win32_isAbsolute (stripWindowsNamespace
        (if jsStartsWith id VITE_FS_PFX then ⟨id.data.drop VITE_FS_PFX.length⟩
         else id)) = false →
      normalizeViteIdForPlatform id platform rp = id) ∧
    (rp (win32_resolve (stripWindowsNamespace
        (if jsStartsWith id VITE_FS_PFX then ⟨id.data.drop VITE_FS_PFX.length⟩
         else id))) = none →
      normalizeViteIdForPlatform id platform rp = id) := by
  have h5 : (VITE_FS_PFX ≠ "") := by decide
  by_cases hp : platform = "win32"
  · subst hp
    by_cases hs : jsStartsWith id VITE_FS_PFX
    · constructor
      · intro habs
        rw [if_pos hs] at habs
        simp [normalizeViteIdForPlatform, hs, h5, habs]
      · intro hrp
        rw [if_pos hs] at hrp
        by_cases habs : win32_isAbsolute (stripWindowsNamespace
            ⟨id.data.drop VITE_FS_PFX.length⟩) = true
        · simp [normalizeViteIdForPlatform, hs, h5, habs, hrp]
        · simp [normalizeViteIdForPlatform, hs, h5, habs]
    · constructor
      · intro habs
        rw [if_neg hs] at habs
        simp [normalizeViteIdForPlatform, hs, habs]
      · intro hrp
        rw [if_neg hs] at hrp
        by_cases habs : win32_isAbsolute (stripWindowsNamespace id) = true
        · simp [normalizeViteIdForPlatform, hs, habs, hrp]
        · simp [normalizeViteIdForPlatform, hs, habs]
  · constructor <;> intro _ <;> simp [normalizeViteIdForPlatform, hp]

/-- C5 witness: a relative identifier is returned unchanged, and so is an
absolute one under a real-path function that throws exactly at the resolved
path it is given (the missing-file case) and nowhere else. -/
theorem normalizeViteIdForPlatform_safe_witness :
    normalizeViteIdForPlatform "hello" "win32" (fun s => some s) = "hello" ∧
    normalizeViteIdForPlatform "C:\\missing" "win32"
      (fun s => if s = "C:\\missing" then none else some s) = "C:\\missing" :=
  ⟨(normalizeViteIdForPlatform_safe "hello" "win32" (fun s => some s)).1 (by decide),
   (normalizeViteIdForPlatform_safe "C:\\missing" "win32"
      (fun s => if s = "C:\\missing" then none else some s)).2 (by decide)⟩

/-! ## Idempotence of the normalizer (claim C4)

The claim quantifies over every idempotent real-path function.  It fails:
an idempotent function may return a verbatim-prefixed (or otherwise
non-canonical) path, which the normalizer strips before returning, so a
second normalization feeds the real-path function a string it has never
fixed.  `badRealpath` below is idempotent yet breaks idempotence of the
normalizer.  Idempotence does hold when the real-path function is
idempotent and only returns canonical absolute Windows drive paths
(backslash-separated, `.`/`..`-free, without verbatim prefixes), which is
the contract of a real `realpathSync`. -/

/-- Idempotent real-path function returning a verbatim-prefixed path. -/
def badRealpath : String → String := fun s =>
  if s = "C:\\a" then "\\\\?\\C:\\b" else if s = "C:\\b" then "C:\\c" else s

theorem badRealpath_idem : ∀ s, badRealpath (badRealpath s) = badRealpath s := by
  intro s
  by_cases h1 : s = "C:\\a"
  · subst h1
    decide
  · by_cases h2 : s = "C:\\b"
    · subst h2
      decide
    · simp [badRealpath, h1, h2]

/-- C4 counterexample: it is not the case that normalization is idempotent
for every platform, input and idempotent real-path function; `badRealpath`
is idempotent, yet on win32 normalizing `C:\a` yields `C:\b` while
normalizing the result again yields `C:\c`. -/
theorem normalize_idempotent_counterexample :
    ¬ (∀ (platform : String) (f : String → String) (x : String),
        (∀ s, f (f s) = f s) →
        normalizeViteIdForPlatform
            (normalizeViteIdForPlatform x platform (fun s => some (f s)))
            platform (fun s => some (f s)) =
          normalizeViteIdForPlatform x platform (fun s => some (f s))) := by
  intro h
  have h2 := h "win32" badRealpath "C:\\a" badRealpath_idem
  revert h2
  decide

/-! ### Component splitting and joining -/

theorem splitComps_ne_nil (p : Char → Bool) (l : List Char) : splitComps p l ≠ [] := by
  induction l with
  | nil => simp [splitComps]
  | cons c rest ih =>
    simp only [splitComps]
    split
    · simp
    · split
      · simp
      · simp

theorem splitComps_sepFree (p : Char → Bool) (l : List Char)
    (h : ∀ c ∈ l, p c = false) : splitComps p l = [l] := by
  induction l with
  | nil => rfl
  | cons c rest ih =>
    have hc : p c = false := h c (List.mem_cons_self c rest)
    have hrest := ih (fun c hc => h c (List.mem_cons_of_mem _ hc))
    simp [splitComps, hc, hrest]

theorem splitComps_append_sep (p : Char → Bool) (s : Char) (a rest : List Char)
    (hs : p s = true) (ha : ∀ c ∈ a, p c = false) :
    splitComps p (a ++ s :: rest) = a :: splitComps p rest := by
  induction a with
  | nil => simp [splitComps, hs]
  | cons c a' ih =>
    have hc : p c = false := ha c (List.mem_cons_self c a')
    have h' := ih (fun c hc => ha c (List.mem_cons_of_mem _ hc))
    simp [splitComps, hc, h']

theorem joinSep_cons_cons (s : Char) (c : Char) (h : List Char)
    (t : List (List Char)) :
    joinSep s ((c :: h) :: t) = c :: joinSep s (h :: t) := by
  cases t with
  | nil => rfl
  | cons b t' => simp [joinSep]

theorem joinSep_splitComps (p : Char → Bool) (s : Char) (l : List Char)
    (h : ∀ c ∈ l, p c = true → c = s) :
    joinSep s (splitComps p l) = l := by
  induction l with
  | nil => rfl
  | cons c rest ih =>
    have ih' := ih (fun c hc hp => h c (List.mem_cons_of_mem _ hc) hp)
    by_cases hc : p c = true
    · have hcs : c = s := h c (List.mem_cons_self c rest) hc
      subst hcs
      simp only [splitComps, hc, if_true]
      obtain ⟨m, t, hmt⟩ : ∃ m t, splitComps p rest = m :: t := by
        cases hsp : splitComps p rest with
        | nil => exact absurd hsp (splitComps_ne_nil p rest)
        | cons m t => exact ⟨m, t, rfl⟩
      rw [hmt]
      rw [hmt] at ih'
      simpa [joinSep] using ih'
    · rw [Bool.not_eq_true] at hc
      simp only [splitComps, hc, Bool.false_eq_true, if_false]
      obtain ⟨m, t, hmt⟩ : ∃ m t, splitComps p rest = m :: t := by
        cases hsp : splitComps p rest with
        | nil => exact absurd hsp (splitComps_ne_nil p rest)
        | cons m t => exact ⟨m, t, rfl⟩
      rw [hmt]
      rw [hmt] at ih'
      rw [joinSep_cons_cons]
      rw [ih']

theorem splitComps_map (p : Char → Bool) (g : Char → Char)
    (hg : ∀ c, p (g c) = p c) (l : List Char) :
    splitComps p (l.map g) = (splitComps p l).map (List.map g) := by
  induction l with
  | nil => rfl
  | cons c rest ih =>
    by_cases hc : p c = true
    · simp [splitComps, hg, hc, ih]
    · rw [Bool.not_eq_true] at hc
      simp only [List.map_cons, splitComps, hg, hc, Bool.false_eq_true, if_false]
      rw [ih]
      obtain ⟨m, t, hmt⟩ : ∃ m t, splitComps p rest = m :: t := by
        cases hsp : splitComps p rest with
        | nil => exact absurd hsp (splitComps_ne_nil p rest)
        | cons m t => exact ⟨m, t, rfl⟩
      rw [hmt]
      simp

theorem splitComps_congr (p q : Char → Bool) (l : List Char)
    (h : ∀ c ∈ l, p c = q c) : splitComps p l = splitComps q l := by
  induction l with
  | nil => rfl
  | cons c rest ih =>
    have hc := h c (List.mem_cons_self c rest)
    have ih' := ih (fun c hc => h c (List.mem_cons_of_mem _ hc))
    simp [splitComps, hc, ih']

/-! ### Canonical absolute Windows drive paths -/

/-- A canonical path component: nonempty, not a dot directory, free of
separators. -/
def isCanonComp (l : List Char) : Bool :=
  decide (l ≠ []) && decide (l ≠ ['.']) && decide (l ≠ ['.', '.']) &&
    l.all (fun c => ! isPathSep c)

/-- A canonical absolute Windows drive path: `X:\`-rooted, backslash
separated, free of forward slashes, with all components canonical (in
particular no empty, `.` or `..` components and no trailing separator).
This is the shape `fs.realpathSync` returns for regular files. -/
def isCanonicalWin32 (s : String) : Bool :=
  match s.data with
  | c :: ':' :: '\\' :: tail =>
    isWindowsDeviceRoot c && tail.all (fun ch => ch ≠ '/') &&
      (splitComps isPathSep tail).all isCanonComp
  | _ => false

theorem canonical_decomp (r : String) (h : isCanonicalWin32 r = true) :
    ∃ c tail, r.data = c :: ':' :: '\\' :: tail ∧ isWindowsDeviceRoot c = true ∧
      (∀ ch ∈ tail, ch ≠ '/') ∧
      ∀ comp ∈ splitComps isPathSep tail, isCanonComp comp = true := by
  unfold isCanonicalWin32 at h
  split at h
  next c tail heq =>
    refine ⟨c, tail, heq, ?_, ?_, ?_⟩
    · simp only [Bool.and_eq_true] at h
      exact h.1.1
    · simp only [Bool.and_eq_true, List.all_eq_true] at h
      intro ch hch
      simpa using h.1.2 ch hch
    · simp only [Bool.and_eq_true, List.all_eq_true] at h
      exact h.2
  next => exact absurd h (by simp)

theorem deviceRoot_not_sep (c : Char) (h : isWindowsDeviceRoot c = true) :
    isPathSep c = false := by
  by_contra hsep
  rw [Bool.not_eq_false] at hsep
  simp only [isPathSep, Bool.or_eq_true, decide_eq_true_eq] at hsep
  rcases hsep with hc | hc <;> subst hc <;> exact absurd h (by decide)

theorem deviceRoot_not_dot (c : Char) (h : isWindowsDeviceRoot c = true) :
    c ≠ '.' := by
  intro hc
  subst hc
  exact absurd h (by decide)

/-! ### `normalizeComps` fixes canonical component lists -/

theorem normStep_canonical (allowAbove : Bool) (acc : List (List Char))
    (comp : List Char) (h : isCanonComp comp = true) :
    normStep allowAbove acc comp = acc ++ [comp] := by
  simp only [isCanonComp, Bool.and_eq_true, decide_eq_true_eq] at h
  simp [normStep, h.1.1.1, h.1.1.2, h.1.2]

theorem foldl_normStep_canonical (allowAbove : Bool) (comps : List (List Char))
    (h : ∀ comp ∈ comps, isCanonComp comp = true) :
    ∀ acc, comps.foldl (normStep allowAbove) acc = acc ++ comps := by
  induction comps with
  | nil => simp
  | cons comp rest ih =>
    intro acc
    have hcomp := h comp (List.mem_cons_self comp rest)
    have ih' := ih (fun c hc => h c (List.mem_cons_of_mem _ hc)) (acc ++ [comp])
    simp only [List.foldl_cons, normStep_canonical allowAbove acc comp hcomp, ih']
    simp

theorem normalizeComps_canonical (allowAbove : Bool) (comps : List (List Char))
    (h : ∀ comp ∈ comps, isCanonComp comp = true) :
    normalizeComps allowAbove comps = comps := by
  simpa using foldl_normStep_canonical allowAbove comps h []

/-! ### `stripWindowsNamespace` fixes strings that do not start with a
separator -/

theorem stripOnce_head_ne (p0 : Char) (pat rep : List Char) (c : Char)
    (cs : List Char) (h : p0 ≠ c) :
    stripOnce (p0 :: pat) rep (c :: cs) = c :: cs := by
  simp [stripOnce, List.isPrefixOf, h]

theorem stripSlashUNC_head_ne (c : Char) (cs : List Char) (h : c ≠ '/') :
    stripSlashUNC (c :: cs) = c :: cs := by
  simp [stripSlashUNC, List.takeWhile, h]

theorem stripSlashQ_head_ne (c : Char) (cs : List Char) (h : c ≠ '/') :
    stripSlashQ (c :: cs) = c :: cs := by
  simp [stripSlashQ, List.takeWhile, h]

theorem stripWindowsNamespace_head_not_sep (c : Char) (cs : List Char)
    (h : isPathSep c = false) :
    stripWindowsNamespace ⟨c :: cs⟩ = ⟨c :: cs⟩ := by
  simp only [isPathSep, Bool.or_eq_false_iff, decide_eq_false_iff_not] at h
  obtain ⟨h1, h2⟩ := h
  show (⟨stripSlashQ (stripSlashUNC (stripOnce ['\\', '?', '\\'] []
      (stripOnce ['\\', '\\', '?', '\\'] []
        (stripOnce ['\\', '?', '\\', 'U', 'N', 'C', '\\'] ['\\', '\\']
          (stripOnce ['\\', '\\', '?', '\\', 'U', 'N', 'C', '\\'] ['\\', '\\']
            (c :: cs))))))⟩ : String) = ⟨c :: cs⟩
  rw [stripOnce_head_ne _ _ _ _ _ (fun hc => h2 hc.symm),
    stripOnce_head_ne _ _ _ _ _ (fun hc => h2 hc.symm),
    stripOnce_head_ne _ _ _ _ _ (fun hc => h2 hc.symm),
    stripOnce_head_ne _ _ _ _ _ (fun hc => h2 hc.symm),
    stripSlashUNC_head_ne _ _ h1, stripSlashQ_head_ne _ _ h1]

/-! ### The last character of a canonically split string is not a separator -/

theorem mem_of_getLast?_eq {α : Type} (l : List α) (a : α)
    (h : l.getLast? = some a) : a ∈ l := by
  obtain ⟨hne, heq⟩ := List.mem_getLast?_eq_getLast (show a ∈ l.getLast? from h ▸ rfl)
  exact heq ▸ List.getLast_mem hne

theorem splitComps_ne_singleton_nil (p : Char → Bool) (l : List Char)
    (h : l ≠ []) : splitComps p l ≠ [[]] := by
  cases l with
  | nil => exact absurd rfl h
  | cons c rest =>
    simp only [splitComps]
    split
    · intro heq
      have := congrArg List.length heq
      simp at this
      exact splitComps_ne_nil p rest this
    · split
      · simp
      · simp

theorem splitComps_cons (p : Char → Bool) (c : Char) (l : List Char) :
    splitComps p (c :: l) =
      if p c then [] :: splitComps p l
      else
        match splitComps p l with
        | [] => [[c]]
        | h :: t => (c :: h) :: t := rfl

theorem splitComps_getLast_sep (p : Char → Bool) :
    ∀ (l : List Char) (ch : Char), l.getLast? = some ch → p ch = true →
      (splitComps p l).getLast? = some [] := by
  intro l
  induction l with
  | nil => intro ch h _; cases h
  | cons c rest ih =>
    intro ch hlast hp
    cases rest with
    | nil =>
      simp only [List.getLast?_singleton, Option.some.injEq] at hlast
      subst hlast
      simp [splitComps, hp]
    | cons r0 rest' =>
      rw [List.getLast?_cons_cons] at hlast
      have ihres := ih ch hlast hp
      obtain ⟨m, t, hmt⟩ : ∃ m t, splitComps p (r0 :: rest') = m :: t := by
        cases hsp : splitComps p (r0 :: rest') with
        | nil => exact absurd hsp (splitComps_ne_nil p _)
        | cons m t => exact ⟨m, t, rfl⟩
      rw [hmt] at ihres
      by_cases hc : p c = true
      · have heq : splitComps p (c :: r0 :: rest') = [] :: m :: t := by
          rw [splitComps_cons, if_pos hc, hmt]
        rw [heq, List.getLast?_cons_cons]
        exact ihres
      · have heq : splitComps p (c :: r0 :: rest') = (c :: m) :: t := by
          rw [splitComps_cons, if_neg hc, hmt]
        rw [heq]
        cases t with
        | nil =>
          simp only [List.getLast?_singleton, Option.some.injEq] at ihres
          subst ihres
          exact absurd hmt (splitComps_ne_singleton_nil p (r0 :: rest') (by simp))
        | cons t0 t' =>
          rw [List.getLast?_cons_cons]
          rw [List.getLast?_cons_cons] at ihres
          exact ihres

theorem last_char_not_sep (p : Char → Bool) (l : List Char)
    (hcomps : ∀ comp ∈ splitComps p l, isCanonComp comp = true)
    (ch : Char) (hlast : l.getLast? = some ch) : p ch = false := by
  by_contra hp
  rw [Bool.not_eq_false] at hp
  have hnil := splitComps_getLast_sep p l ch hlast hp
  have hmem := mem_of_getLast?_eq _ _ hnil
  have := hcomps [] hmem
  simp [isCanonComp] at this

/-! ### `win32_resolve` and `posix_normalize` fix canonical paths -/

theorem isCanonComp_drive (c : Char) (hc : isWindowsDeviceRoot c = true) :
    isCanonComp [c, ':'] = true := by
  have hsep := deviceRoot_not_sep c hc
  have hdot := deviceRoot_not_dot c hc
  simp only [isPathSep, Bool.or_eq_false_iff, decide_eq_false_iff_not] at hsep
  simp [isCanonComp, isPathSep, hdot, hsep.1, hsep.2]

theorem sep_eq_backslash_of_no_slash (tail : List Char)
    (hnz : ∀ ch ∈ tail, ch ≠ '/') :
    ∀ ch ∈ tail, isPathSep ch = true → ch = '\\' := by
  intro ch hch hp
  simp only [isPathSep, Bool.or_eq_true, decide_eq_true_eq] at hp
  rcases hp with h | h
  · exact absurd h (hnz ch hch)
  · exact h

theorem win32_resolve_canonical (c : Char) (tail : List Char)
    (hc : isWindowsDeviceRoot c = true)
    (hnz : ∀ ch ∈ tail, ch ≠ '/')
    (hcomps : ∀ comp ∈ splitComps isPathSep tail, isCanonComp comp = true) :
    win32_resolve ⟨c :: ':' :: '\\' :: tail⟩ = ⟨c :: ':' :: '\\' :: tail⟩ := by
  have hstep : win32_resolve ⟨c :: ':' :: '\\' :: tail⟩ =
      ⟨[c, ':', '\\'] ++ joinSep '\\' (normalizeComps false (splitComps isPathSep tail))⟩ := by
    simp [win32_resolve, hc, show isPathSep '\\' = true from rfl]
  rw [hstep, normalizeComps_canonical false _ hcomps,
    joinSep_splitComps isPathSep '\\' tail (sep_eq_backslash_of_no_slash tail hnz)]
  rfl

theorem win32_resolve_canonical_posix (c : Char) (tail tp : List Char)
    (hc : isWindowsDeviceRoot c = true)
    (hsplit : splitComps isPathSep tp = splitComps isPathSep tail)
    (hnz : ∀ ch ∈ tail, ch ≠ '/')
    (hcomps : ∀ comp ∈ splitComps isPathSep tail, isCanonComp comp = true) :
    win32_resolve ⟨c :: ':' :: '/' :: tp⟩ = ⟨c :: ':' :: '\\' :: tail⟩ := by
  have hstep : win32_resolve ⟨c :: ':' :: '/' :: tp⟩ =
      ⟨[c, ':', '\\'] ++ joinSep '\\' (normalizeComps false (splitComps isPathSep tp))⟩ := by
    simp [win32_resolve, hc, show isPathSep '/' = true from rfl]
  rw [hstep, hsplit, normalizeComps_canonical false _ hcomps,
    joinSep_splitComps isPathSep '\\' tail (sep_eq_backslash_of_no_slash tail hnz)]
  rfl

theorem swapSlash_sep (c : Char) : isPathSep (swapSlash c) = isPathSep c := by
  by_cases h : c = '\\'
  · subst h
    rfl
  · simp [swapSlash, h]

theorem swapSlash_ne_backslash (c : Char) : swapSlash c ≠ '\\' := by
  by_cases h : c = '\\'
  · subst h
    decide
  · simp [swapSlash, h]

theorem swapSlash_of_not_sep (c : Char) (h : isPathSep c = false) : swapSlash c = c := by
  simp only [isPathSep, Bool.or_eq_false_iff, decide_eq_false_iff_not] at h
  simp [swapSlash, h.2]

theorem toPosixPath_canonical (c : Char) (tail : List Char) (hcb : c ≠ '\\') :
    toPosixPath ⟨c :: ':' :: '\\' :: tail⟩ = ⟨c :: ':' :: '/' :: tail.map swapSlash⟩ := by
  simp [toPosixPath, swapSlash, hcb]

/-- Evaluation of `posix_normalize` on a relative path with a non-separator
last character and a nonempty normalized body. -/
theorem posix_normalize_eval (c : Char) (rest : List Char)
    (hAbs : isPosixSep c = false)
    (htrail : isPosixSep ((c :: rest).getLastD ' ') = false)
    (hbody : joinSep '/' (normalizeComps true (splitComps isPosixSep (c :: rest))) ≠ []) :
    posix_normalize ⟨c :: rest⟩ =
      ⟨joinSep '/' (normalizeComps true (splitComps isPosixSep (c :: rest)))⟩ := by
  rw [List.getLastD_eq_getLast?] at htrail
  simp only [posix_normalize]
  simp [hAbs, htrail, hbody]

theorem posix_normalize_canonical (c : Char) (tp : List Char)
    (hc : isWindowsDeviceRoot c = true)
    (hnb : ∀ ch ∈ tp, ch ≠ '\\')
    (hcomps : ∀ comp ∈ splitComps isPathSep tp, isCanonComp comp = true) :
    posix_normalize ⟨c :: ':' :: '/' :: tp⟩ = ⟨c :: ':' :: '/' :: tp⟩ := by
  have hcsep := deviceRoot_not_sep c hc
  simp only [isPathSep, Bool.or_eq_false_iff, decide_eq_false_iff_not] at hcsep
  have htpne : tp ≠ [] := by
    intro h
    subst h
    have := hcomps [] (by simp [splitComps])
    simp [isCanonComp] at this
  have hsepcongr : ∀ ch ∈ tp, isPosixSep ch = isPathSep ch := by
    intro ch hch
    have hb := hnb ch hch
    by_cases h : ch = '/'
    · simp [isPosixSep, isPathSep, h]
    · simp [isPosixSep, isPathSep, h, hb]
  have hsplit : splitComps isPosixSep (c :: ':' :: '/' :: tp) =
      [c, ':'] :: splitComps isPathSep tp := by
    have h1 : splitComps isPosixSep (([c, ':'] : List Char) ++ '/' :: tp) =
        [c, ':'] :: splitComps isPosixSep tp := by
      apply splitComps_append_sep isPosixSep '/' [c, ':'] tp rfl
      intro x hx
      rcases List.mem_cons.mp hx with h | h
      · subst h
        simp [isPosixSep, hcsep.1]
      · rcases List.mem_cons.mp h with h | h
        · subst h
          rfl
        · cases h
    rw [show (c :: ':' :: '/' :: tp) = ([c, ':'] : List Char) ++ '/' :: tp from rfl, h1,
      splitComps_congr isPosixSep isPathSep tp hsepcongr]
  have hnorm : normalizeComps true ([c, ':'] :: splitComps isPathSep tp) =
      [c, ':'] :: splitComps isPathSep tp := by
    apply normalizeComps_canonical
    intro comp hcomp
    rcases List.mem_cons.mp hcomp with h | h
    · subst h
      exact isCanonComp_drive c hc
    · exact hcomps comp h
  have hjoin : joinSep '/' ([c, ':'] :: splitComps isPathSep tp) = c :: ':' :: '/' :: tp := by
    obtain ⟨m, t, hmt⟩ : ∃ m t, splitComps isPathSep tp = m :: t := by
      cases hsp : splitComps isPathSep tp with
      | nil => exact absurd hsp (splitComps_ne_nil _ _)
      | cons m t => exact ⟨m, t, rfl⟩
    have hjtp : joinSep '/' (m :: t) = tp := by
      rw [← hmt]
      apply joinSep_splitComps isPathSep '/' tp
      intro ch hch hp
      simp only [isPathSep, Bool.or_eq_true, decide_eq_true_eq] at hp
      rcases hp with h | h
      · exact h
      · exact absurd h (hnb ch hch)
    rw [hmt]
    calc joinSep '/' ([c, ':'] :: m :: t)
        = [c, ':'] ++ '/' :: joinSep '/' (m :: t) := rfl
      _ = c :: ':' :: '/' :: tp := by rw [hjtp]; rfl
  have htrail : isPosixSep ((c :: ':' :: '/' :: tp).getLastD ' ') = false := by
    rw [List.getLastD_cons, List.getLastD_cons, List.getLastD_cons]
    obtain ⟨ch, hch⟩ : ∃ ch, tp.getLast? = some ch := by
      cases h : tp.getLast? with
      | none => exact absurd (List.getLast?_eq_none_iff.mp h) htpne
      | some ch => exact ⟨ch, rfl⟩
    rw [List.getLastD_eq_getLast?, hch]
    have hns := last_char_not_sep isPathSep tp hcomps ch hch
    simp only [isPathSep, Bool.or_eq_false_iff, decide_eq_false_iff_not] at hns
    simp [isPosixSep, hns.1]
  have hbodyeq : joinSep '/' (normalizeComps true
      (splitComps isPosixSep (c :: ':' :: '/' :: tp))) = c :: ':' :: '/' :: tp := by
    rw [hsplit, hnorm, hjoin]
  rw [posix_normalize_eval c (':' :: '/' :: tp) (by simp [isPosixSep, hcsep.1]) htrail
      (by rw [hbodyeq]; simp), hbodyeq]

/-! ### Evaluation and fixed points of the normalizer on win32 -/

theorem normalize_win32_nopfx (x : String) (rp : String → Option String)
    (hs : jsStartsWith x VITE_FS_PFX = false)
    (habs : win32_isAbsolute (stripWindowsNamespace x) = true)
    (r : String) (hr : rp (win32_resolve (stripWindowsNamespace x)) = some r) :
    normalizeViteIdForPlatform x "win32" rp = stripWindowsNamespace r := by
  simp [normalizeViteIdForPlatform, hs, habs, hr]

theorem normalize_win32_pfx (x : String) (rp : String → Option String)
    (hs : jsStartsWith x VITE_FS_PFX = true)
    (habs : win32_isAbsolute (stripWindowsNamespace
      ⟨x.data.drop VITE_FS_PFX.length⟩) = true)
    (r : String)
    (hr : rp (win32_resolve (stripWindowsNamespace
      ⟨x.data.drop VITE_FS_PFX.length⟩)) = some r) :
    normalizeViteIdForPlatform x "win32" rp =
      VITE_FS_PFX ++ posix_normalize (toPosixPath (stripWindowsNamespace r)) := by
  simp [normalizeViteIdForPlatform, normalizeVitePath, hs, habs, hr,
    show (VITE_FS_PFX ≠ "") from by decide]

theorem jsStartsWith_canonical_false (c : Char) (cs : List Char)
    (h : isPathSep c = false) :
    jsStartsWith ⟨c :: cs⟩ VITE_FS_PFX = false := by
  simp only [isPathSep, Bool.or_eq_false_iff, decide_eq_false_iff_not] at h
  simp only [jsStartsWith, VITE_FS_PFX]
  show (['/', '@', 'f', 's', '/'].isPrefixOf (c :: cs)) = false
  simp [List.isPrefixOf, Ne.symm h.1]

theorem win32_isAbsolute_drive (c : Char) (c2 : Char) (cs : List Char)
    (hc : isWindowsDeviceRoot c = true) (h2 : isPathSep c2 = true) :
    win32_isAbsolute ⟨c :: ':' :: c2 :: cs⟩ = true := by
  simp [win32_isAbsolute, hc, h2]

/-- The normalizer fixes canonical drive paths under a real-path function
fixing them. -/
theorem normalize_fix_nopfx (rp : String → Option String) (c : Char)
    (tail : List Char) (hc : isWindowsDeviceRoot c = true)
    (hnz : ∀ ch ∈ tail, ch ≠ '/')
    (hcomps : ∀ comp ∈ splitComps isPathSep tail, isCanonComp comp = true)
    (hrp : rp ⟨c :: ':' :: '\\' :: tail⟩ = some ⟨c :: ':' :: '\\' :: tail⟩) :
    normalizeViteIdForPlatform ⟨c :: ':' :: '\\' :: tail⟩ "win32" rp =
      ⟨c :: ':' :: '\\' :: tail⟩ := by
  have hsep := deviceRoot_not_sep c hc
  have hstrip : stripWindowsNamespace ⟨c :: ':' :: '\\' :: tail⟩ =
      ⟨c :: ':' :: '\\' :: tail⟩ :=
    stripWindowsNamespace_head_not_sep c _ hsep
  rw [normalize_win32_nopfx _ rp (jsStartsWith_canonical_false c _ hsep)
    (by rw [hstrip]; exact win32_isAbsolute_drive c '\\' tail hc rfl)
    ⟨c :: ':' :: '\\' :: tail⟩
    (by rw [hstrip, win32_resolve_canonical c tail hc hnz hcomps]; exact hrp), hstrip]

/-- The normalizer fixes `/@fs/`-prefixed posix forms of canonical drive
paths under a real-path function fixing the canonical path. -/
theorem normalize_fix_pfx (rp : String → Option String) (c : Char)
    (tail tp : List Char) (hc : isWindowsDeviceRoot c = true)
    (_hnb : ∀ ch ∈ tp, ch ≠ '\\')
    (hsplit : splitComps isPathSep tp = splitComps isPathSep tail)
    (hnz : ∀ ch ∈ tail, ch ≠ '/')
    (hcomps : ∀ comp ∈ splitComps isPathSep tail, isCanonComp comp = true)
    (hrp : rp ⟨c :: ':' :: '\\' :: tail⟩ = some ⟨c :: ':' :: '\\' :: tail⟩)
    (hpos : posix_normalize (toPosixPath ⟨c :: ':' :: '\\' :: tail⟩) =
      ⟨c :: ':' :: '/' :: tp⟩) :
    normalizeViteIdForPlatform (VITE_FS_PFX ++ ⟨c :: ':' :: '/' :: tp⟩) "win32" rp =
      VITE_FS_PFX ++ ⟨c :: ':' :: '/' :: tp⟩ := by
  have hsep := deviceRoot_not_sep c hc
  have hsY : jsStartsWith (VITE_FS_PFX ++ ⟨c :: ':' :: '/' :: tp⟩) VITE_FS_PFX = true := by
    simp only [jsStartsWith, String.data_append]
    exact List.isPrefixOf_iff_prefix.mpr (List.prefix_append _ _)
  have hdrop : (⟨(VITE_FS_PFX ++ ⟨c :: ':' :: '/' :: tp⟩).data.drop VITE_FS_PFX.length⟩ :
      String) = ⟨c :: ':' :: '/' :: tp⟩ := by
    rw [String.data_append]
    rw [show VITE_FS_PFX.length = VITE_FS_PFX.data.length from rfl, List.drop_left]
  have hstrip : stripWindowsNamespace ⟨c :: ':' :: '/' :: tp⟩ = ⟨c :: ':' :: '/' :: tp⟩ :=
    stripWindowsNamespace_head_not_sep c _ hsep
  have hres : win32_resolve ⟨c :: ':' :: '/' :: tp⟩ = ⟨c :: ':' :: '\\' :: tail⟩ :=
    win32_resolve_canonical_posix c tail tp hc hsplit hnz hcomps
  rw [normalize_win32_pfx _ rp hsY
    (by rw [hdrop, hstrip]; exact win32_isAbsolute_drive c '/' tp hc rfl)
    ⟨c :: ':' :: '\\' :: tail⟩
    (by rw [hdrop, hstrip, hres]; exact hrp)]
  rw [stripWindowsNamespace_head_not_sep c _ hsep, hpos]

/-- C4 (amended): normalization is idempotent for every real-path function
that is idempotent and returns only canonical absolute Windows drive paths
(backslash-separated, normalized, without verbatim prefixes — the contract
of `fs.realpathSync`); on a non-Windows platform this holds trivially
because the normalizer is the identity there.  (For arbitrary idempotent
real-path functions idempotence fails, see the counterexample.) -/
theorem normalizeViteIdForPlatform_idem_canonical (platform : String)
    (f : String → String) (x : String)
    (hcanon : ∀ s, isCanonicalWin32 (f s) = true)
    (hidem : ∀ s, f (f s) = f s) :
    normalizeViteIdForPlatform
        (normalizeViteIdForPlatform x platform (fun s => some (f s)))
        platform (fun s => some (f s)) =
      normalizeViteIdForPlatform x platform (fun s => some (f s)) ∧
    (platform ≠ "win32" → normalizeViteIdForPlatform x platform (fun s => some (f s)) = x) := by
  constructor
  · by_cases hp : platform = "win32"
    · subst hp
      by_cases hs : jsStartsWith x VITE_FS_PFX = true
      · by_cases habs : win32_isAbsolute (stripWindowsNamespace
            ⟨x.data.drop VITE_FS_PFX.length⟩) = true
        · obtain ⟨c, tail, hdata, hc, hnz, hcomps⟩ :=
            canonical_decomp
              (f (win32_resolve (stripWindowsNamespace ⟨x.data.drop VITE_FS_PFX.length⟩)))
              (hcanon _)
          have hfz : f (win32_resolve (stripWindowsNamespace
              ⟨x.data.drop VITE_FS_PFX.length⟩)) =
              (⟨c :: ':' :: '\\' :: tail⟩ : String) := congrArg String.mk hdata
          have hfix : f ⟨c :: ':' :: '\\' :: tail⟩ = ⟨c :: ':' :: '\\' :: tail⟩ := by
            have h := hidem (win32_resolve (stripWindowsNamespace
              ⟨x.data.drop VITE_FS_PFX.length⟩))
            rwa [hfz] at h
          have hsep := deviceRoot_not_sep c hc
          have hcb : c ≠ '\\' := by
            simp only [isPathSep, Bool.or_eq_false_iff, decide_eq_false_iff_not] at hsep
            exact hsep.2
          have hnb : ∀ ch ∈ tail.map swapSlash, ch ≠ '\\' := by
            intro ch hch
            obtain ⟨y, _, rfl⟩ := List.mem_map.mp hch
            exact swapSlash_ne_backslash y
          have hsplit : splitComps isPathSep (tail.map swapSlash) =
              splitComps isPathSep tail := by
            rw [splitComps_map isPathSep swapSlash swapSlash_sep]
            have hfixcomp : ∀ comp ∈ splitComps isPathSep tail,
                List.map swapSlash comp = comp := by
              intro comp hcomp
              have hcanonc := hcomps comp hcomp
              simp only [isCanonComp, Bool.and_eq_true, List.all_eq_true] at hcanonc
              have : ∀ y ∈ comp, swapSlash y = y := by
                intro y hy
                apply swapSlash_of_not_sep
                have := hcanonc.2 y hy
                simp only [Bool.not_eq_true'] at this
                exact this
              calc List.map swapSlash comp = List.map id comp :=
                    List.map_congr_left this
                _ = comp := List.map_id comp
            calc (splitComps isPathSep tail).map (List.map swapSlash)
                = (splitComps isPathSep tail).map id :=
                  List.map_congr_left hfixcomp
              _ = splitComps isPathSep tail := List.map_id _
          have hcomps' : ∀ comp ∈ splitComps isPathSep (tail.map swapSlash),
              isCanonComp comp = true := by
            intro comp hcomp
            rw [hsplit] at hcomp
            exact hcomps comp hcomp
          have hpos : posix_normalize (toPosixPath ⟨c :: ':' :: '\\' :: tail⟩) =
              ⟨c :: ':' :: '/' :: tail.map swapSlash⟩ := by
            rw [toPosixPath_canonical c tail hcb]
            exact posix_normalize_canonical c (tail.map swapSlash) hc hnb hcomps'
          have hN : normalizeViteIdForPlatform x "win32" (fun s => some (f s)) =
              VITE_FS_PFX ++ ⟨c :: ':' :: '/' :: tail.map swapSlash⟩ := by
            rw [normalize_win32_pfx x _ hs habs
              (f (win32_resolve (stripWindowsNamespace ⟨x.data.drop VITE_FS_PFX.length⟩)))
              rfl, hfz, stripWindowsNamespace_head_not_sep c _ hsep, hpos]
          rw [hN]
          exact normalize_fix_pfx (fun s => some (f s)) c tail (tail.map swapSlash)
            hc hnb hsplit hnz hcomps (by simp [hfix]) hpos
        · have hNx : normalizeViteIdForPlatform x "win32" (fun s => some (f s)) = x := by
            simp [normalizeViteIdForPlatform, hs, habs,
              show (VITE_FS_PFX ≠ "") from by decide]
          rw [hNx]
          exact hNx
      · by_cases habs : win32_isAbsolute (stripWindowsNamespace x) = true
        · rw [Bool.not_eq_true] at hs
          obtain ⟨c, tail, hdata, hc, hnz, hcomps⟩ :=
            canonical_decomp (f (win32_resolve (stripWindowsNamespace x))) (hcanon _)
          have hfz : f (win32_resolve (stripWindowsNamespace x)) =
              (⟨c :: ':' :: '\\' :: tail⟩ : String) := congrArg String.mk hdata
          have hfix : f ⟨c :: ':' :: '\\' :: tail⟩ = ⟨c :: ':' :: '\\' :: tail⟩ := by
            have h := hidem (win32_resolve (stripWindowsNamespace x))
            rwa [hfz] at h
          have hsep := deviceRoot_not_sep c hc
          have hN : normalizeViteIdForPlatform x "win32" (fun s => some (f s)) =
              ⟨c :: ':' :: '\\' :: tail⟩ := by
            rw [normalize_win32_nopfx x _ hs habs
              (f (win32_resolve (stripWindowsNamespace x))) rfl, hfz,
              stripWindowsNamespace_head_not_sep c _ hsep]
          rw [hN]
          exact normalize_fix_nopfx (fun s => some (f s)) c tail hc hnz hcomps
            (by simp [hfix])
        · have hNx : normalizeViteIdForPlatform x "win32" (fun s => some (f s)) = x := by
            rw [Bool.not_eq_true] at hs
            simp [normalizeViteIdForPlatform, hs, habs]
          rw [hNx]
          exact hNx
    · have h1 : normalizeViteIdForPlatform x platform (fun s => some (f s)) = x := by
        simp [normalizeViteIdForPlatform, hp]
      rw [h1]
      exact h1
  · intro hp
    simp [normalizeViteIdForPlatform, hp]

/-- C4 witness: the amended idempotence at a concrete canonical real-path
function and input. -/
theorem normalizeViteIdForPlatform_idem_canonical_witness :
    normalizeViteIdForPlatform
        (normalizeViteIdForPlatform "/@fs//?/D:/theme/tokens.ts" "win32"
          (fun _ => some "C:\\work\\tokens.ts"))
        "win32" (fun _ => some "C:\\work\\tokens.ts") =
      normalizeViteIdForPlatform "/@fs//?/D:/theme/tokens.ts" "win32"
        (fun _ => some "C:\\work\\tokens.ts") :=
  (normalizeViteIdForPlatform_idem_canonical "win32" (fun _ => "C:\\work\\tokens.ts")
    "/@fs//?/D:/theme/tokens.ts"
    (fun _ => by show isCanonicalWin32 "C:\\work\\tokens.ts" = true; decide)
    (fun _ => rfl)).1

end StyleDictionaryPlugin
